import Mathlib

/-!
Verification of the merge engine of the `json-feed-aggregator` repository
(`src/main.ts`, class `FeedAggregator`), shallowly embedded in Lean.

Modelling conventions:
- JavaScript `Date` values are epoch milliseconds (`Int`); comparison of two
  dates compares these numbers, exactly as `<`, `<=` and `getTime` do.
- Optional fields (`expireAt?`, `shouldApproximateDate?`, `date_published?`,
  ...) are `Option` values; `none` is the absent/`undefined` case.
- `structuredClone` is the identity on the value level; a separate heap model
  (see the `H` definitions near the end) captures the aliasing aspect.
- The deep equality function `equal` of `@std/assert`, which the source calls
  on arbitrary runtime values, is embedded over a small inductive universe
  `JSVal` of the JavaScript values the engine actually compares (undefined,
  strings, booleans, dates and plain objects).
-/

namespace FeedAggregator

/-- Universe of the JavaScript runtime values that the engine passes to the
deep-equality function `equal` of `@std/assert`: `undefined`, strings,
booleans, `Date` objects (by their epoch-millisecond time, which is how
`equal` compares them) and plain objects as key-value lists. -/
inductive JSVal where
  | undef : JSVal
  | str : String → JSVal
  | bool : Bool → JSVal
  | date : Int → JSVal
  | obj : List (String × JSVal) → JSVal

/-- Property access `o[k]` on a plain object: the value at the first
occurrence of the key, `undefined` when the key is absent. -/
def lookupD (k : String) : List (String × JSVal) → JSVal
  | [] => .undef
  | (k2, v) :: rest => if k = k2 then v else lookupD k rest

/-- Deep structural equality, embedding `equal` from `@std/assert` on the
`JSVal` universe: `Date` values compare by their time, objects compare by
walking the merged key set of both sides and comparing the values (absent
keys read as `undefined`). The source iterates each merged key once; folding
over the concatenation of both key lists instead visits a shared key twice,
which cannot change the conjunction. -/
def equal : JSVal → JSVal → Bool
  | .undef, .undef => true
  | .str a, .str b => a == b
  | .bool a, .bool b => a == b
  | .date a, .date b => a == b
  | .obj xs, .obj ys =>
      (xs.map Prod.fst ++ ys.map Prod.fst).all
        (fun k => equal (lookupD k xs) (lookupD k ys))
  | _, _ => false
termination_by a b => sizeOf a + sizeOf b
decreasing_by
  all_goals {
    have key : ∀ (k0 : String) (zs : List (String × JSVal)),
        sizeOf (lookupD k0 zs) < 1 + sizeOf zs := by
      intro k0 zs
      induction zs with
      | nil => simp [lookupD]
      | cons hd tl ih =>
        obtain ⟨k2, v⟩ := hd
        simp only [lookupD]
        split
        · simp only [List.cons.sizeOf_spec, Prod.mk.sizeOf_spec]
          omega
        · simp only [List.cons.sizeOf_spec, Prod.mk.sizeOf_spec]
          omega
    have h1 := key k xs
    have h2 := key k ys
    simp only [JSVal.obj.sizeOf_spec]
    omega
  }

/-- Feed item (`Item` of `@vwkd/feed`): a stable string `id`, the optional
content fields the repository exercises, the two timestamp fields the engine
derives, and a list of further arbitrary string fields standing for the rest
of the JSON Feed item surface. -/
structure Item where
  id : String
  url : Option String := none
  content_html : Option String := none
  content_text : Option String := none
  date_published : Option String := none
  date_modified : Option String := none
  extra : List (String × String) := []
deriving DecidableEq, Repr

/-- One `AggregatorItem` of `src/types.ts`: the item plus its options. -/
structure AggregatorItem where
  item : Item
  expireAt : Option Int := none
  shouldApproximateDate : Option Bool := none
deriving DecidableEq, Repr

/-- Encoding of an optional string field as object entries: present fields
contribute one entry, absent fields contribute none. -/
def optEntry (k : String) : Option String → List (String × JSVal)
  | none => []
  | some s => [(k, .str s)]

/-- The JavaScript object underlying an `Item` value. -/
def Item.fieldsJS (i : Item) : List (String × JSVal) :=
  ("id", .str i.id) ::
    (optEntry "url" i.url ++ optEntry "content_html" i.content_html ++
      optEntry "content_text" i.content_text ++
      optEntry "date_published" i.date_published ++
      optEntry "date_modified" i.date_modified ++
      i.extra.map (fun p => (p.1, JSVal.str p.2)))

def Item.toJS (i : Item) : JSVal := .obj i.fieldsJS

/-- The object remaining after the destructuring
`const (dropped date_published, ...itemRest) = item` in `add`. -/
def Item.restFieldsJS (i : Item) : List (String × JSVal) :=
  ("id", .str i.id) ::
    (optEntry "url" i.url ++ optEntry "content_html" i.content_html ++
      optEntry "content_text" i.content_text ++
      optEntry "date_modified" i.date_modified ++
      i.extra.map (fun p => (p.1, JSVal.str p.2)))

def Item.toJSNoPublished (i : Item) : JSVal := .obj i.restFieldsJS

def optDateJS : Option Int → JSVal
  | none => .undef
  | some t => .date t

def optBoolJS : Option Bool → JSVal
  | none => .undef
  | some b => .bool b

/-- The JavaScript object underlying an `AggregatorItem`: the shape
`(item, expireAt, shouldApproximateDate)` that `add` pushes into
`itemsAdded` and that `Deno.Kv` stores and returns. -/
def AggregatorItem.fieldsJS (e : AggregatorItem) : List (String × JSVal) :=
  [("item", e.item.toJS), ("expireAt", optDateJS e.expireAt),
    ("shouldApproximateDate", optBoolJS e.shouldApproximateDate)]

def AggregatorItem.toJS (e : AggregatorItem) : JSVal := .obj e.fieldsJS

def pad2 (n : Nat) : String :=
  if n < 10 then "0" ++ toString n else toString n

def pad3 (n : Nat) : String :=
  if n < 10 then "00" ++ toString n
  else if n < 100 then "0" ++ toString n
  else toString n

def pad4 (n : Nat) : String :=
  if n < 10 then "000" ++ toString n
  else if n < 100 then "00" ++ toString n
  else if n < 1000 then "0" ++ toString n
  else toString n

/-- Conversion from a day count relative to 1970-01-01 to a civil
(year, month, day) triple, the standard era-based algorithm used by date
libraries. Supports the proleptic Gregorian calendar. -/
def civilFromDays (z0 : Int) : Int × Nat × Nat :=
  let z := z0 + 719468
  let era := z.fdiv 146097
  let doe := (z - era * 146097).toNat
  let yoe := (doe - doe / 1460 + doe / 36524 - doe / 146096) / 365
  let doy := doe - (365 * yoe + yoe / 4 - yoe / 100)
  let mp := (5 * doy + 2) / 153
  let d := doy - (153 * mp + 2) / 5 + 1
  let m := if mp < 10 then mp + 3 else mp - 9
  (era * 400 + yoe + (if m ≤ 2 then 1 else 0), m, d)

/-- Embedding of `Date.prototype.toISOString` of the JavaScript runtime (an
external collaborator of the engine) on epoch milliseconds, for years
0 to 9999. The engine treats its output as an uninterpreted string: it
stores it and compares it for equality, never parses it. -/
def toISOString (ms : Int) : String :=
  let day := ms.fdiv 86400000
  let rem := (ms - day * 86400000).toNat
  let c := civilFromDays day
  let hh := rem / 3600000
  let mm := rem % 3600000 / 60000
  let ss := rem % 60000 / 1000
  let msd := rem % 1000
  pad4 c.1.toNat ++ "-" ++ pad2 c.2.1 ++ "-" ++ pad2 c.2.2 ++ "T" ++
    pad2 hh ++ ":" ++ pad2 mm ++ ":" ++ pad2 ss ++ "." ++ pad3 msd ++ "Z"

/-- JavaScript truthiness of an optional boolean, as used by
`if (shouldApproximateDate)`: absent and `false` are falsy. -/
def truthy : Option Bool → Bool
  | none => false
  | some b => b

/-- JavaScript truthiness of an optional string, as used by
`item.date_published || item.date_modified`: absent and the empty string
are falsy. -/
def truthyStr : Option String → Bool
  | none => false
  | some s => s != ""

/-- JavaScript loose inequality `a != b` on the
`boolean | undefined` values of `shouldApproximateDate`: `undefined` is
loosely equal only to `undefined` (and `null`), so this is plain
inequality of the optional values. -/
def looseNe (a b : Option Bool) : Bool := decide (a ≠ b)

/-- The per-instance session state of a `FeedAggregator`: the load-once
flag and the two entry lists. -/
structure Session where
  initialized : Bool
  itemsCached : List AggregatorItem
  itemsAdded : List AggregatorItem
deriving DecidableEq, Repr

/-- The Deno KV store, modelled as a key-value list in key order. A set
on an existing key replaces the value in place; a set on a fresh key
appends. Physical TTL eviction is not modelled: the store may keep expired
entries indefinitely, which is the lagging-eviction behaviour the engine
must tolerate. -/
abbrev Store := List (List String × AggregatorItem)

def DENO_KV_MAX_BATCH_SIZE : Nat := 1000

/-- The Deno KV prefix selector: matches keys that strictly extend the
prefix. -/
def keyUnder (pfx k : List String) : Bool :=
  pfx.isPrefixOf k && decide (pfx.length < k.length)

/-- Embedding of `#read`: on first access list every entry under the
prefix into `itemsCached`; later calls return unchanged. -/
def read (st : Store) (pfx : List String) (s : Session) : Session :=
  if s.initialized then s
  else
    { initialized := true,
      itemsCached := (st.filter (fun kv => keyUnder pfx kv.fst)).map Prod.snd,
      itemsAdded := s.itemsAdded }

/-- The filter `!expireAt || expireAt > now` of `#clean` and `#init`. -/
def notExpired (now : Int) (e : AggregatorItem) : Bool :=
  match e.expireAt with
  | none => true
  | some t => decide (now < t)

/-- Embedding of `#clean`: drop expired entries from both lists, with the
early return of the source when nothing was dropped from either list. -/
def clean (now : Int) (s : Session) : Session :=
  let itemsCached := s.itemsCached.filter (notExpired now)
  let itemsAdded := s.itemsAdded.filter (notExpired now)
  if itemsCached.length = s.itemsCached.length ∧
      itemsAdded.length = s.itemsAdded.length then s
  else { s with itemsCached := itemsCached, itemsAdded := itemsAdded }

/-- The check `expireAt && expireAt <= now` of `add`: a `Date` object is
always truthy, so a present expiry that is not strictly in the future
triggers the skip. -/
def expiredSub (now : Int) : Option Int → Bool
  | none => false
  | some t => decide (t ≤ now)

/-- Template-literal rendering of a `boolean | undefined` value, used in
the error message of the flag-mismatch throw. -/
def jsShowOB : Option Bool → String
  | none => "undefined"
  | some true => "true"
  | some false => "false"

def mismatchMsg (a b : Option Bool) : String :=
  "Should approximate date " ++ jsShowOB a ++ " differs from existing " ++
    jsShowOB b

def conflictMsg (i : Item) : String :=
  "Should approximate date but already has " ++
    (if truthyStr i.date_published then "published" else "modified") ++ " date"

/-- Embedding of one iteration of the loop body of `add` on one submission:
the duplicate check, the expired-skip, the conflicting-date check, then
reconciliation against `itemsCached`. `structuredClone` is the identity at
the value level, so the clone is the submitted item itself. Errors are
thrown, leaving the state of this iteration untouched. -/
def addItem (now : Int) (s : Session) (sub : AggregatorItem) :
    Except String Session :=
  let item := sub.item
  let itemId := item.id
  if s.itemsAdded.any (fun e => e.item.id == itemId) then
    .error "Already added"
  else if expiredSub now sub.expireAt then
    .ok s
  else if truthy sub.shouldApproximateDate &&
      (truthyStr item.date_published || truthyStr item.date_modified) then
    .error (conflictMsg item)
  else
    match s.itemsCached.find? (fun e => e.item.id == itemId) with
    | some existingItem =>
      if looseNe sub.shouldApproximateDate existingItem.shouldApproximateDate then
        .error (mismatchMsg sub.shouldApproximateDate
          existingItem.shouldApproximateDate)
      else if equal existingItem.toJS item.toJS then
        .ok s
      else if truthy sub.shouldApproximateDate then
        if equal item.toJSNoPublished existingItem.item.toJSNoPublished then
          .ok s
        else
          let item2 := { item with
            date_published := existingItem.item.date_published,
            date_modified := some (toISOString now) }
          .ok { s with
            itemsCached := s.itemsCached.filter (fun e => e.item.id != itemId),
            itemsAdded := s.itemsAdded ++
              [{ item := item2, expireAt := sub.expireAt,
                 shouldApproximateDate := sub.shouldApproximateDate }] }
      else
        .ok { s with
          itemsCached := s.itemsCached.filter (fun e => e.item.id != itemId),
          itemsAdded := s.itemsAdded ++
            [{ item := item, expireAt := sub.expireAt,
               shouldApproximateDate := sub.shouldApproximateDate }] }
    | none =>
      if truthy sub.shouldApproximateDate then
        .ok { s with itemsAdded := s.itemsAdded ++
          [{ item := { item with date_published := some (toISOString now) },
             expireAt := sub.expireAt,
             shouldApproximateDate := sub.shouldApproximateDate }] }
      else
        .ok { s with itemsAdded := s.itemsAdded ++
          [{ item := item, expireAt := sub.expireAt,
             shouldApproximateDate := sub.shouldApproximateDate }] }

/-- The `for` loop of `add` over the submissions: a throw aborts the loop
and leaves the mutations of the earlier iterations in place. -/
def addLoop (now : Int) : Session → List AggregatorItem →
    Session × Option String
  | s, [] => (s, none)
  | s, sub :: rest =>
    match addItem now s sub with
    | .error e => (s, some e)
    | .ok s2 => addLoop now s2 rest

/-- Embedding of `add(...items)`: capture `now`, read once, clean, then
process the submissions in order. The returned session is the state when
the call finishes or throws; the optional string is the thrown error. -/
def add (st : Store) (pfx : List String) (now : Int) (s : Session)
    (subs : List AggregatorItem) : Session × Option String :=
  addLoop now (clean now (read st pfx s)) subs

/-- One entry of an atomic `set` mutation issued by `#write`: key is the
prefix extended by the item id, value the whole aggregator entry, TTL the
distance from `now` to `expireAt` when present. -/
structure Mutation where
  key : List String
  value : AggregatorItem
  expireIn : Option Int
deriving DecidableEq, Repr

def chunksOfGo {α : Type} (n : Nat) : Nat → List α → List (List α)
  | _, [] => []
  | 0, l => [l]
  | fuel + 1, l => l.take n :: chunksOfGo n fuel (l.drop n)

/-- Embedding of `chunk` from `@std/collections`: split a list into
consecutive runs of `n`, the last one possibly shorter. The length of the
list bounds the recursion. -/
def chunksOf {α : Type} (n : Nat) (l : List α) : List (List α) :=
  chunksOfGo n l.length l

/-- Embedding of `#write` minus its store I/O: the list of atomic batches
it commits, in order, and the session state after the fold of
`itemsAdded` into `itemsCached` that follows the commits. -/
def write (pfx : List String) (now : Int) (s : Session) :
    List (List Mutation) × Session :=
  if s.itemsAdded.isEmpty then ([], s)
  else
    let items := s.itemsAdded.map (fun it =>
      { key := pfx ++ [it.item.id], value := it,
        expireIn := it.expireAt.map (fun t => t - now) : Mutation })
    (chunksOf DENO_KV_MAX_BATCH_SIZE items,
      { s with itemsCached := s.itemsCached ++ s.itemsAdded,
               itemsAdded := [] })

/-- A `set` on the store: replace in place when the key exists, append
otherwise. -/
def storeSet (st : Store) (k : List String) (v : AggregatorItem) : Store :=
  if st.any (fun kv => kv.fst == k) then
    st.map (fun kv => if kv.fst == k then (k, v) else kv)
  else st ++ [(k, v)]

def applyMutations (st : Store) (ms : List Mutation) : Store :=
  ms.foldl (fun acc m => storeSet acc m.key m.value) st

def applyChunks (st : Store) (cs : List (List Mutation)) : Store :=
  cs.foldl applyMutations st

/-- Feed metadata, the fields the repository exercises. -/
structure FeedInfo where
  title : String
  home_page_url : String
  feed_url : String
deriving DecidableEq, Repr

def jsonStr (s : String) : String := "\"" ++ s ++ "\""

def optPart (k : String) : Option String → String
  | none => ""
  | some v => "," ++ jsonStr k ++ ":" ++ jsonStr v

/-- Serialization of one item by the external `@vwkd/feed` renderer,
modelled as a deterministic JSON printer over the item fields. -/
def Item.renderJSON (i : Item) : String :=
  "\x7b" ++ jsonStr "id" ++ ":" ++ jsonStr i.id ++ optPart "url" i.url ++
    optPart "content_html" i.content_html ++
    optPart "content_text" i.content_text ++
    optPart "date_published" i.date_published ++
    optPart "date_modified" i.date_modified ++
    String.join (i.extra.map (fun p => "," ++ jsonStr p.1 ++ ":" ++ jsonStr p.2)) ++
    "\x7d"

/-- The document produced by `new Feed(info)` plus `feed.add(...)` plus
`feed.toJSON()`: the envelope of section 6 of the spec around the item
list, serialized deterministically. -/
def feedJSON (info : FeedInfo) (items : List Item) : String :=
  "\x7b" ++ jsonStr "version" ++ ":" ++
    jsonStr "https://jsonfeed.org/version/1.1" ++ "," ++
    jsonStr "title" ++ ":" ++ jsonStr info.title ++ "," ++
    jsonStr "home_page_url" ++ ":" ++ jsonStr info.home_page_url ++ "," ++
    jsonStr "feed_url" ++ ":" ++ jsonStr info.feed_url ++ "," ++
    jsonStr "items" ++ ":[" ++
    String.intercalate "," (items.map Item.renderJSON) ++ "]\x7d"

/-- Observable outcome of one `toJSON()` call. The source calls
`this.#write(now)` WITHOUT `await`: when there are added items, `#write`
suspends at its first `commit()` before folding, the method then builds the
feed and resolves. `stateAtReturn` is therefore the session state at
promise resolution (cleaned but not folded); `state` is the session state
once the initiated write settles (fold done, added items cleared); `store`
is the store once every initiated chunk commit has applied. -/
structure RenderResult where
  doc : String
  entries : List AggregatorItem
  chunks : List (List Mutation)
  stateAtReturn : Session
  state : Session
  store : Store
deriving DecidableEq, Repr

/-- Embedding of `toJSON()`: capture `now`, read once, clean, start the
write, hand the items of `itemsCached` then `itemsAdded` to the feed
renderer. -/
def toJSON (info : FeedInfo) (st : Store) (pfx : List String) (now : Int)
    (s : Session) : RenderResult :=
  let s1 := read st pfx s
  let s2 := clean now s1
  let ws := write pfx now s2
  { doc := feedJSON info ((s2.itemsCached ++ s2.itemsAdded).map (fun e => e.item)),
    entries := s2.itemsCached ++ s2.itemsAdded,
    chunks := ws.fst,
    stateAtReturn := s2,
    state := ws.snd,
    store := applyChunks st ws.fst }

/-- Ids of all entries across `itemsCached` and `itemsAdded`, cached part
first. -/
def sessionIds (s : Session) : List String :=
  (s.itemsCached ++ s.itemsAdded).map (fun e => e.item.id)

/-- The session invariant of section 3 of the spec: at most one entry per
item id across `itemsCached` and `itemsAdded` combined, and no entry has
been accepted before the initial load. -/
def Inv (s : Session) : Prop :=
  (sessionIds s).Nodup ∧ (s.initialized = false → s.itemsAdded = [])

def storeKeys (st : Store) : List (List String) := st.map Prod.fst

/-- Well-formedness of the shared store under a prefix: keys are unique,
and every key under the prefix is the prefix extended by the id of the
item stored at it (which is how every write of the engine shapes its
keys). -/
def WFStore (pfx : List String) (st : Store) : Prop :=
  (storeKeys st).Nodup ∧
    ∀ kv ∈ st, keyUnder pfx kv.fst = true → kv.fst = pfx ++ [kv.snd.item.id]

/-- Ids of the entries the store holds under the prefix. -/
def storeIdsUnder (pfx : List String) (st : Store) : List String :=
  (st.filter (fun kv => keyUnder pfx kv.fst)).map (fun kv => kv.snd.item.id)

/-- States reachable by any sequence of `add` and `toJSON` calls of one
engine instance, starting from a fresh session against an initial store.
The store index tracks the writes the renders have committed. -/
inductive Reachable (st0 : Store) (pfx : List String) :
    Store → Session → Prop
  | init : Reachable st0 pfx st0 ⟨false, [], []⟩
  | addStep (now : Int) (subs : List AggregatorItem) {st : Store}
      {s : Session} : Reachable st0 pfx st s →
      Reachable st0 pfx st (add st pfx now s subs).fst
  | renderStep (info : FeedInfo) (now : Int) {st : Store} {s : Session} :
      Reachable st0 pfx st s →
      Reachable st0 pfx (toJSON info st pfx now s).store
        (toJSON info st pfx now s).state

def emptyItem : Item :=
  { id := "", url := none, content_html := none, content_text := none,
    date_published := none, date_modified := none, extra := [] }

/-- Heap of JavaScript `Item` objects, for the aliasing aspect of `add`:
a cell per object, addressed by allocation index. -/
abbrev Heap := List Item

def heapGet (h : Heap) (r : Nat) : Item := h.getD r emptyItem

/-- One submission as `add` receives it: a reference to a caller-owned
item object plus the two options. -/
structure RefSub where
  itemRef : Nat
  expireAt : Option Int
  shouldApproximateDate : Option Bool
deriving DecidableEq, Repr

/-- Heap-level embedding of one iteration of the loop body of `add`,
with the object mutations explicit: `structuredClone(_item)` allocates a
fresh cell copying the referenced item, and each timestamp assignment
writes that fresh cell only. Mirrors `addItem` otherwise. -/
def addItemH (now : Int) (s : Session) (h : Heap) (sub : RefSub) :
    Heap × Except String Session :=
  let h1 := h ++ [heapGet h sub.itemRef]
  let r := h.length
  let item := heapGet h1 r
  let itemId := item.id
  if s.itemsAdded.any (fun e => e.item.id == itemId) then
    (h1, .error "Already added")
  else if expiredSub now sub.expireAt then
    (h1, .ok s)
  else if truthy sub.shouldApproximateDate &&
      (truthyStr item.date_published || truthyStr item.date_modified) then
    (h1, .error (conflictMsg item))
  else
    match s.itemsCached.find? (fun e => e.item.id == itemId) with
    | some existingItem =>
      if looseNe sub.shouldApproximateDate existingItem.shouldApproximateDate then
        (h1, .error (mismatchMsg sub.shouldApproximateDate
          existingItem.shouldApproximateDate))
      else if equal existingItem.toJS item.toJS then
        (h1, .ok s)
      else if truthy sub.shouldApproximateDate then
        if equal item.toJSNoPublished existingItem.item.toJSNoPublished then
          (h1, .ok s)
        else
          let h2 := h1.set r { heapGet h1 r with
            date_published := existingItem.item.date_published }
          let h3 := h2.set r { heapGet h2 r with
            date_modified := some (toISOString now) }
          (h3, .ok { s with
            itemsCached := s.itemsCached.filter (fun e => e.item.id != itemId),
            itemsAdded := s.itemsAdded ++
              [{ item := heapGet h3 r, expireAt := sub.expireAt,
                 shouldApproximateDate := sub.shouldApproximateDate }] })
      else
        (h1, .ok { s with
          itemsCached := s.itemsCached.filter (fun e => e.item.id != itemId),
          itemsAdded := s.itemsAdded ++
            [{ item := heapGet h1 r, expireAt := sub.expireAt,
               shouldApproximateDate := sub.shouldApproximateDate }] })
    | none =>
      if truthy sub.shouldApproximateDate then
        let h2 := h1.set r { heapGet h1 r with
          date_published := some (toISOString now) }
        (h2, .ok { s with itemsAdded := s.itemsAdded ++
          [{ item := heapGet h2 r, expireAt := sub.expireAt,
             shouldApproximateDate := sub.shouldApproximateDate }] })
      else
        (h1, .ok { s with itemsAdded := s.itemsAdded ++
          [{ item := heapGet h1 r, expireAt := sub.expireAt,
             shouldApproximateDate := sub.shouldApproximateDate }] })

/-- Heap-level embedding of the `for` loop of `add` over the
submissions. -/
def addLoopH (now : Int) : Session → Heap → List RefSub →
    Heap × Session × Option String
  | s, h, [] => (h, s, none)
  | s, h, sub :: rest =>
    match addItemH now s h sub with
    | (h2, .error e) => (h2, s, some e)
    | (h2, .ok s2) => addLoopH now s2 h2 rest

/-- Fixture: the first test item of the repository. -/
def item1 : Item :=
  { id := "1", url := some "https://example.org/foo",
    content_html := some "<p>foo</p>" }

/-- Fixture: `item1` wrapped as a plain submission without options. -/
def ent1 : AggregatorItem := { item := item1 }

/-- Fixture: the feed metadata of the tests. -/
def info0 : FeedInfo :=
  { title := "Example Feed", home_page_url := "https://example.org",
    feed_url := "https://example.org/feed.json" }

theorem equal_obj (xs ys : List (String × JSVal)) :
    equal (.obj xs) (.obj ys) =
      (xs.map Prod.fst ++ ys.map Prod.fst).all
        (fun k => equal (lookupD k xs) (lookupD k ys)) := by
  rw [equal]

/-- The comparison `equal(existingItem, item)` in `add` compares the cache
entry wrapper object against the bare item object. The wrapper has no `id`
key while every item has one, so the deep equality compares `undefined`
against a string at the key `id` and is false for every entry and every
item. -/
theorem equal_entry_item (e : AggregatorItem) (i : Item) :
    equal (AggregatorItem.toJS e) (Item.toJS i) = false := by
  rw [AggregatorItem.toJS, Item.toJS, equal_obj]
  have hw : lookupD "id" (AggregatorItem.fieldsJS e) = .undef := by
    simp [AggregatorItem.fieldsJS, lookupD]
  have hi : lookupD "id" (Item.fieldsJS i) = .str i.id := by
    simp [Item.fieldsJS, lookupD]
  have hfalse :
      equal (lookupD "id" (AggregatorItem.fieldsJS e))
        (lookupD "id" (Item.fieldsJS i)) = false := by
    rw [hw, hi, equal.eq_def]
  have hmem : "id" ∈ (AggregatorItem.fieldsJS e).map Prod.fst ++
      (Item.fieldsJS i).map Prod.fst := by
    simp [Item.fieldsJS]
  rw [List.all_eq_false]
  exact ⟨"id", hmem, by simp [hfalse]⟩

theorem clean_eq (now : Int) (s : Session) :
    clean now s =
      { initialized := s.initialized,
        itemsCached := s.itemsCached.filter (notExpired now),
        itemsAdded := s.itemsAdded.filter (notExpired now) } := by
  obtain ⟨i, c, a⟩ := s
  simp only [clean]
  split
  · next h =>
    obtain ⟨h1, h2⟩ := h
    have e1 : c.filter (notExpired now) = c :=
      (List.filter_sublist c).eq_of_length h1
    have e2 : a.filter (notExpired now) = a :=
      (List.filter_sublist a).eq_of_length h2
    rw [e1, e2]
  · rfl

theorem read_initialized (st : Store) (pfx : List String) (s : Session) :
    (read st pfx s).initialized = true := by
  unfold read
  split
  · next h => exact h
  · rfl

theorem read_of_initialized (st : Store) (pfx : List String) (s : Session)
    (h : s.initialized = true) : read st pfx s = s := by
  unfold read
  split
  · rfl
  · next h2 => exact absurd h h2

theorem write_snd (pfx : List String) (now : Int) (s : Session) :
    (write pfx now s).snd =
      { initialized := s.initialized,
        itemsCached := s.itemsCached ++ s.itemsAdded, itemsAdded := [] } := by
  obtain ⟨i, c, a⟩ := s
  unfold write
  split
  · next h =>
    have ha : a = [] := by simpa using h
    subst ha
    simp
  · rfl

theorem filter_notExpired_idem (now : Int) (l : List AggregatorItem) :
    (l.filter (notExpired now)).filter (notExpired now) =
      l.filter (notExpired now) := by
  induction l with
  | nil => rfl
  | cons x xs ih => cases hx : notExpired now x <;> simp [List.filter_cons, hx, ih]

theorem clean_of_filtered (now : Int) (i : Bool) (c a : List AggregatorItem) :
    clean now ⟨i, c.filter (notExpired now) ++ a.filter (notExpired now), []⟩ =
      ⟨i, c.filter (notExpired now) ++ a.filter (notExpired now), []⟩ := by
  rw [clean_eq]
  simp [List.filter_append, filter_notExpired_idem]

theorem render_state (info : FeedInfo) (st : Store) (pfx : List String)
    (now : Int) (s : Session) :
    (toJSON info st pfx now s).state =
      ⟨true, (read st pfx s).itemsCached.filter (notExpired now) ++
        (read st pfx s).itemsAdded.filter (notExpired now), []⟩ := by
  simp only [toJSON]
  rw [write_snd, clean_eq]
  simp [read_initialized]

theorem render_of_flushed (info : FeedInfo) (st : Store) (pfx : List String)
    (now : Int) (c a : List AggregatorItem) :
    toJSON info st pfx now
        ⟨true, c.filter (notExpired now) ++ a.filter (notExpired now), []⟩ =
      { doc := feedJSON info
          ((c.filter (notExpired now) ++ a.filter (notExpired now)).map
            (fun e => e.item)),
        entries := c.filter (notExpired now) ++ a.filter (notExpired now),
        chunks := [],
        stateAtReturn :=
          ⟨true, c.filter (notExpired now) ++ a.filter (notExpired now), []⟩,
        state :=
          ⟨true, c.filter (notExpired now) ++ a.filter (notExpired now), []⟩,
        store := st } := by
  simp only [toJSON]
  rw [read_of_initialized _ _ _ rfl, clean_of_filtered]
  simp [write, applyChunks]

/-- C6: with the same captured `now`, a second `toJSON` call on the state
and store left by a first one returns the byte-identical document, issues
no atomic batch, and leaves the store untouched. -/
theorem render_idempotent (info : FeedInfo) (st : Store) (pfx : List String)
    (now : Int) (s : Session) :
    (toJSON info (toJSON info st pfx now s).store pfx now
        (toJSON info st pfx now s).state).doc =
      (toJSON info st pfx now s).doc ∧
    (toJSON info (toJSON info st pfx now s).store pfx now
        (toJSON info st pfx now s).state).chunks = [] ∧
    (toJSON info (toJSON info st pfx now s).store pfx now
        (toJSON info st pfx now s).state).store =
      (toJSON info st pfx now s).store := by
  rw [render_state, render_of_flushed]
  have hdoc : (toJSON info st pfx now s).doc = feedJSON info
      (((read st pfx s).itemsCached.filter (notExpired now) ++
        (read st pfx s).itemsAdded.filter (notExpired now)).map
          (fun e => e.item)) := by
    simp only [toJSON]
    rw [clean_eq]
  exact ⟨hdoc.symm, rfl, rfl⟩

/-- C3: every entry handed to the feed renderer by a `toJSON` call, whether
loaded from the store listing, already cached, or pending from this
session, has an expiry strictly after the `now` captured by that call;
logically expired entries never appear. -/
theorem render_excludes_expired (info : FeedInfo) (st : Store)
    (pfx : List String) (now : Int) (s : Session) (e : AggregatorItem)
    (t : Int) (he : e ∈ (toJSON info st pfx now s).entries)
    (ht : e.expireAt = some t) : now < t := by
  simp only [toJSON, clean_eq] at he
  rcases List.mem_append.mp he with h | h
  all_goals {
    have h2 := (List.mem_filter.mp h).2
    simp [notExpired, ht] at h2
    exact h2
  }

theorem render_excludes_expired_witness :
    (⟨item1, some 20, none⟩ : AggregatorItem) ∈
      (toJSON info0 [(["p", "1"], ⟨item1, some 20, none⟩)] ["p"] 10
        ⟨false, [], []⟩).entries ∧ (10 : Int) < 20 :=
  ⟨by decide, render_excludes_expired info0
    [(["p", "1"], ⟨item1, some 20, none⟩)] ["p"] 10 ⟨false, [], []⟩
    ⟨item1, some 20, none⟩ 20 (by decide) rfl⟩

/-- C7: a submission whose `expireAt` is not strictly after the captured
`now` is never accepted into `itemsAdded` and never changes `itemsCached`:
it is silently skipped (the policy this implementation fixes), leaving the
state untouched, unless the earlier duplicate check already threw. -/
theorem expired_submission_skipped (now : Int) (s : Session)
    (sub : AggregatorItem) (t : Int) (h1 : sub.expireAt = some t)
    (h2 : t ≤ now) :
    addItem now s sub = .ok s ∨ addItem now s sub = .error "Already added" := by
  by_cases hdup : (s.itemsAdded.any (fun e => e.item.id == sub.item.id)) = true
  · right
    simp [addItem, hdup]
  · left
    have hdup2 : (s.itemsAdded.any (fun e => e.item.id == sub.item.id)) = false := by
      simpa using hdup
    simp [addItem, hdup2, h1, expiredSub, h2]

theorem expired_submission_skipped_witness :
    addItem 10 ⟨true, [], []⟩ ⟨item1, some 5, none⟩ = .ok ⟨true, [], []⟩ ∨
    addItem 10 ⟨true, [], []⟩ ⟨item1, some 5, none⟩ = .error "Already added" :=
  expired_submission_skipped 10 ⟨true, [], []⟩ ⟨item1, some 5, none⟩ 5 rfl
    (by decide)

/-- C2: the source calls `this.#write(now)` without `await`, so `toJSON`
resolves while the flush of the added items is still in flight: on a
session with one pending entry, at promise resolution the pending list is
still non-empty and nothing has been folded into the cached list, even
though the write (a single atomic batch of one keyed set, within the
1000-key bound) has been initiated and eventually folds. The claim that
every pending entry has been appended to `cached` and `pending` is empty
before `render` returns fails at this input. -/
theorem render_returns_before_flush :
    (toJSON info0 [] ["foo", "bar"] 0 ⟨true, [], [ent1]⟩).stateAtReturn.itemsAdded
      = [ent1] ∧
    (toJSON info0 [] ["foo", "bar"] 0 ⟨true, [], [ent1]⟩).stateAtReturn.itemsCached
      = [] ∧
    (toJSON info0 [] ["foo", "bar"] 0 ⟨true, [], [ent1]⟩).state.itemsAdded = [] ∧
    (toJSON info0 [] ["foo", "bar"] 0 ⟨true, [], [ent1]⟩).state.itemsCached
      = [ent1] ∧
    (toJSON info0 [] ["foo", "bar"] 0 ⟨true, [], [ent1]⟩).chunks =
      [[{ key := ["foo", "bar", "1"], value := ent1, expireIn := none }]] :=
  ⟨rfl, rfl, rfl, rfl, rfl⟩

/-- C1: an identical non-approximate resubmission of a cached item is NOT
discarded as a no-op: the wrapper-versus-item comparison
`equal(existingItem, item)` never fires, so the engine removes the cached
entry, accepts the identical submission into the pending list, and the
next render issues a store write for that id. -/
theorem identical_resubmission_not_discarded :
    addItem 0 ⟨true, [ent1], []⟩ ent1 = .ok ⟨true, [], [ent1]⟩ ∧
    (toJSON info0 [] ["foo", "bar"] 0 ⟨true, [], [ent1]⟩).chunks ≠ [] := by
  constructor
  · simp [addItem, ent1, item1, expiredSub, truthy, looseNe, equal_entry_item]
  · decide

/-- C4: a submission with `shouldApproximateDate` that targets an existing
cached entry and is a real change (neither of the two no-op comparisons
fires) is accepted into the pending list carrying the published timestamp
of the cached entry unchanged and a modified timestamp stamped with the
ISO-8601 rendering of the captured `now`, and the existing entry is
removed from the cached list. -/
theorem add_change_with_approximation (now : Int) (s : Session)
    (sub ex : AggregatorItem)
    (h1 : s.itemsAdded.any (fun e => e.item.id == sub.item.id) = false)
    (h2 : expiredSub now sub.expireAt = false)
    (h3 : truthy sub.shouldApproximateDate = true)
    (h4 : truthyStr sub.item.date_published = false)
    (h5 : truthyStr sub.item.date_modified = false)
    (h6 : s.itemsCached.find? (fun e => e.item.id == sub.item.id) = some ex)
    (h7 : looseNe sub.shouldApproximateDate ex.shouldApproximateDate = false)
    (h8 : equal ex.toJS sub.item.toJS = false)
    (h9 : equal sub.item.toJSNoPublished ex.item.toJSNoPublished = false) :
    addItem now s sub = .ok
      { s with
        itemsCached := s.itemsCached.filter (fun e => e.item.id != sub.item.id),
        itemsAdded := s.itemsAdded ++
          [{ item :=
              { sub.item with
                date_published := ex.item.date_published,
                date_modified := some (toISOString now) },
             expireAt := sub.expireAt,
             shouldApproximateDate := sub.shouldApproximateDate }] } := by
  simp [addItem, h1, h2, h3, h4, h5, h6, h7, h8, h9]

def exW : AggregatorItem :=
  { item := { item1 with date_published := some "1970-01-01T00:00:00.003Z" },
    shouldApproximateDate := some true }

def subW : AggregatorItem :=
  { item := { item1 with content_html := some "<p>bar</p>" },
    shouldApproximateDate := some true }

theorem add_change_with_approximation_witness :
    addItem 7 ⟨true, [exW], []⟩ subW = .ok
      ⟨true, [],
        [{ item :=
            { subW.item with
              date_published := exW.item.date_published,
              date_modified := some (toISOString 7) },
           expireAt := none, shouldApproximateDate := some true }]⟩ := by
  have h := add_change_with_approximation 7 ⟨true, [exW], []⟩ subW exW
    rfl rfl rfl rfl rfl (by decide) (by decide) (equal_entry_item exW subW.item)
    (by simp [Item.toJSNoPublished, Item.restFieldsJS, optEntry, equal,
      lookupD, subW, exW, item1])
  simpa [exW, subW, item1] using h

theorem addLoop_duplicate (now : Int) (post : List AggregatorItem)
    (sub : AggregatorItem) :
    ∀ (pre : List AggregatorItem) (s s1 : Session),
      addLoop now s pre = (s1, none) →
      s1.itemsAdded.any (fun e => e.item.id == sub.item.id) = true →
      addLoop now s (pre ++ sub :: post) = (s1, some "Already added") := by
  intro pre
  induction pre with
  | nil =>
    intro s s1 hpre hdup
    simp only [addLoop] at hpre
    obtain rfl : s = s1 := congrArg Prod.fst hpre
    simp [addLoop, addItem, hdup]
  | cons head tail ih =>
    intro s s1 hpre hdup
    simp only [List.cons_append, addLoop] at hpre ⊢
    cases h : addItem now s head with
    | error e =>
      rw [h] at hpre
      simp at hpre
    | ok s2 =>
      rw [h] at hpre
      dsimp only at hpre ⊢
      exact ih s2 s1 hpre hdup

/-- C5: if, when a submission of an `add` call comes up, an item with the
same id has already been accepted into the pending list (by an earlier
call or by an earlier submission of the same call, here the prefix `pre`),
the call throws `Already added` at that submission, leaving the state as
the prefix left it. -/
theorem add_duplicate_submission (st : Store) (pfx : List String) (now : Int)
    (s s1 : Session) (pre post : List AggregatorItem) (sub : AggregatorItem)
    (hpre : addLoop now (clean now (read st pfx s)) pre = (s1, none))
    (hdup : s1.itemsAdded.any (fun e => e.item.id == sub.item.id) = true) :
    add st pfx now s (pre ++ sub :: post) = (s1, some "Already added") := by
  unfold add
  exact addLoop_duplicate now post sub pre _ s1 hpre hdup

theorem add_duplicate_submission_witness :
    add [] ["p"] 0 ⟨false, [], []⟩ [⟨item1, none, none⟩, ⟨item1, none, none⟩] =
      (⟨true, [], [⟨item1, none, none⟩]⟩, some "Already added") :=
  add_duplicate_submission [] ["p"] 0 ⟨false, [], []⟩
    ⟨true, [], [⟨item1, none, none⟩]⟩ [⟨item1, none, none⟩] []
    ⟨item1, none, none⟩ rfl (by decide)

/-- C8: a submission whose id matches a cached entry but whose
`shouldApproximateDate` differs (under JavaScript loose inequality) from
the flag of the cached entry makes `add` throw the mismatch error at that
submission, aborting the loop with the session state unchanged by it. -/
theorem add_approximation_mismatch (now : Int) (s : Session)
    (sub ex : AggregatorItem) (rest : List AggregatorItem)
    (h1 : s.itemsAdded.any (fun e => e.item.id == sub.item.id) = false)
    (h2 : expiredSub now sub.expireAt = false)
    (h3 : (truthy sub.shouldApproximateDate &&
      (truthyStr sub.item.date_published ||
        truthyStr sub.item.date_modified)) = false)
    (h4 : s.itemsCached.find? (fun e => e.item.id == sub.item.id) = some ex)
    (h5 : looseNe sub.shouldApproximateDate ex.shouldApproximateDate = true) :
    addLoop now s (sub :: rest) =
      (s, some (mismatchMsg sub.shouldApproximateDate
        ex.shouldApproximateDate)) := by
  simp [addLoop, addItem, h1, h2, h3, h4, h5]

theorem add_approximation_mismatch_witness :
    addLoop 0 ⟨true, [⟨item1, none, some true⟩], []⟩ [⟨item1, none, none⟩] =
      (⟨true, [⟨item1, none, some true⟩], []⟩,
        some (mismatchMsg none (some true))) :=
  add_approximation_mismatch 0 ⟨true, [⟨item1, none, some true⟩], []⟩
    ⟨item1, none, none⟩ ⟨item1, none, some true⟩ [] rfl rfl rfl (by decide)
    (by decide)

theorem forall_ne_of_not_any (l : List AggregatorItem) (idv : String)
    (h : ¬(l.any (fun e => e.item.id == idv) = true)) :
    ∀ e ∈ l, e.item.id ≠ idv := by
  intro e he heq
  exact h (List.any_eq_true.mpr ⟨e, he, by simp [heq]⟩)

theorem forall_ne_of_find_none (l : List AggregatorItem) (idv : String)
    (h : l.find? (fun e => e.item.id == idv) = none) :
    ∀ e ∈ l, e.item.id ≠ idv := by
  intro e he heq
  have h2 := List.find?_eq_none.mp h e he
  simp [heq] at h2

theorem nodup_push (c a : List AggregatorItem) (x : AggregatorItem)
    (idv : String) (hid : x.item.id = idv)
    (hnodup : ((c ++ a).map (fun e => e.item.id)).Nodup)
    (hxc : ∀ e ∈ c, e.item.id ≠ idv)
    (hxa : ∀ e ∈ a, e.item.id ≠ idv) :
    ((c ++ (a ++ [x])).map (fun e => e.item.id)).Nodup := by
  rw [List.map_append, List.nodup_append] at hnodup
  obtain ⟨hc, ha, hdisj⟩ := hnodup
  rw [List.map_append, List.map_append, List.nodup_append]
  simp only [List.map_cons, List.map_nil]
  refine ⟨hc, ?_, ?_⟩
  · rw [List.nodup_append]
    refine ⟨ha, List.nodup_singleton _, ?_⟩
    rw [List.disjoint_singleton]
    intro hmem
    obtain ⟨e, he, heq⟩ := List.mem_map.mp hmem
    exact hxa e he (heq.trans hid)
  · rw [List.disjoint_append_right]
    refine ⟨hdisj, ?_⟩
    rw [List.disjoint_singleton]
    intro hmem
    obtain ⟨e, he, heq⟩ := List.mem_map.mp hmem
    exact hxc e he (heq.trans hid)

theorem nodup_overwrite (c a : List AggregatorItem) (x : AggregatorItem)
    (idv : String) (hid : x.item.id = idv)
    (hnodup : ((c ++ a).map (fun e => e.item.id)).Nodup)
    (hxa : ∀ e ∈ a, e.item.id ≠ idv) :
    (((c.filter (fun e => e.item.id != idv)) ++ (a ++ [x])).map
      (fun e => e.item.id)).Nodup := by
  apply nodup_push _ _ _ _ hid
  · exact List.Nodup.sublist
      (((List.filter_sublist c).append (List.Sublist.refl a)).map _) hnodup
  · intro e he
    exact bne_iff_ne.mp (List.mem_filter.mp he).2
  · exact hxa

/-- Case analysis of a successful `addItem`: either the submission was a
no-op leaving the state untouched, or it was accepted: the pending list
grew by exactly one entry carrying the submitted id, that id was free in
the pending list, and the cached list either had its matching entries
filtered out or contained no matching entry at all. -/
theorem addItem_ok_cases (now : Int) (s : Session) (sub : AggregatorItem)
    (s2 : Session) (hok : addItem now s sub = Except.ok s2) :
    s2 = s ∨
    ((∀ e ∈ s.itemsAdded, e.item.id ≠ sub.item.id) ∧
      ∃ x : AggregatorItem, x.item.id = sub.item.id ∧
      (s2 = { s with
          itemsCached :=
            s.itemsCached.filter (fun e => e.item.id != sub.item.id),
          itemsAdded := s.itemsAdded ++ [x] } ∨
        ((∀ e ∈ s.itemsCached, e.item.id ≠ sub.item.id) ∧
          s2 = { s with itemsAdded := s.itemsAdded ++ [x] }))) := by
  simp only [addItem] at hok
  split at hok
  · exact absurd hok (by simp)
  · next hdup =>
    split at hok
    · left
      injection hok with h
      exact h.symm
    · split at hok
      · exact absurd hok (by simp)
      · split at hok
        · next ex heq =>
          split at hok
          · exact absurd hok (by simp)
          · split at hok
            · left
              injection hok with h
              exact h.symm
            · split at hok
              · split at hok
                · left
                  injection hok with h
                  exact h.symm
                · right
                  refine ⟨forall_ne_of_not_any _ _ hdup, ?_⟩
                  injection hok with h
                  refine ⟨_, ?_, Or.inl h.symm⟩
                  rfl
              · right
                refine ⟨forall_ne_of_not_any _ _ hdup, ?_⟩
                injection hok with h
                refine ⟨_, ?_, Or.inl h.symm⟩
                rfl
        · next heq =>
          split at hok
          · right
            refine ⟨forall_ne_of_not_any _ _ hdup, ?_⟩
            injection hok with h
            refine ⟨_, ?_, Or.inr ⟨forall_ne_of_find_none _ _ heq, h.symm⟩⟩
            rfl
          · right
            refine ⟨forall_ne_of_not_any _ _ hdup, ?_⟩
            injection hok with h
            refine ⟨_, ?_, Or.inr ⟨forall_ne_of_find_none _ _ heq, h.symm⟩⟩
            rfl

theorem Inv_addItem (now : Int) (s : Session) (sub : AggregatorItem)
    (s2 : Session) (hs : (sessionIds s).Nodup)
    (hok : addItem now s sub = Except.ok s2) :
    (sessionIds s2).Nodup ∧ s2.initialized = s.initialized := by
  rcases addItem_ok_cases now s sub s2 hok with rfl | ⟨hxa, x, hxid, hcase | ⟨hxc, hcase⟩⟩
  · exact ⟨hs, rfl⟩
  · subst hcase
    refine ⟨?_, rfl⟩
    simp only [sessionIds] at hs ⊢
    exact nodup_overwrite _ _ _ _ hxid hs hxa
  · subst hcase
    refine ⟨?_, rfl⟩
    simp only [sessionIds] at hs ⊢
    exact nodup_push _ _ _ _ hxid hs hxc hxa

theorem Inv_addLoop (now : Int) :
    ∀ (subs : List AggregatorItem) (s : Session),
      (sessionIds s).Nodup → s.initialized = true →
      (sessionIds (addLoop now s subs).fst).Nodup ∧
        (addLoop now s subs).fst.initialized = true := by
  intro subs
  induction subs with
  | nil => intro s h hi; exact ⟨h, hi⟩
  | cons sub rest ih =>
    intro s h hi
    simp only [addLoop]
    cases hok : addItem now s sub with
    | error e => exact ⟨h, hi⟩
    | ok s2 =>
      obtain ⟨h2, h2i⟩ := Inv_addItem now s sub s2 h hok
      exact ih s2 h2 (h2i.trans hi)

theorem Inv_read (st : Store) (pfx : List String) (s : Session)
    (hids : (storeIdsUnder pfx st).Nodup)
    (hs : Inv s) : Inv (read st pfx s) := by
  unfold read
  split
  · exact hs
  · next hi =>
    have hfalse : s.initialized = false := by
      cases hb : s.initialized
      · rfl
      · exact absurd hb hi
    have hadded : s.itemsAdded = [] := hs.2 hfalse
    constructor
    · simp only [sessionIds, hadded, List.append_nil]
      rw [List.map_map]
      exact hids
    · intro h
      simp at h

theorem Inv_clean (now : Int) (s : Session) (hs : Inv s) :
    Inv (clean now s) := by
  rw [clean_eq]
  constructor
  · simp only [sessionIds]
    exact List.Nodup.sublist
      (((List.filter_sublist _).append (List.filter_sublist _)).map _) hs.1
  · intro h
    simp only at h
    rw [hs.2 h]
    rfl

theorem Inv_add (st : Store) (pfx : List String) (now : Int) (s : Session)
    (subs : List AggregatorItem)
    (hids : (storeIdsUnder pfx st).Nodup) (hs : Inv s) :
    Inv (add st pfx now s subs).fst := by
  unfold add
  have h1 : Inv (read st pfx s) := Inv_read st pfx s hids hs
  have h2 : Inv (clean now (read st pfx s)) := Inv_clean now _ h1
  have h2i : (clean now (read st pfx s)).initialized = true := by
    rw [clean_eq]
    exact read_initialized st pfx s
  obtain ⟨hn, hi⟩ := Inv_addLoop now subs _ h2.1 h2i
  refine ⟨hn, ?_⟩
  intro hfalse
  rw [hfalse] at hi
  exact absurd hi (by simp)

theorem WFStore_idsNodup (pfx : List String) (st : Store)
    (hwf : WFStore pfx st) : (storeIdsUnder pfx st).Nodup := by
  obtain ⟨hkeys, hshape⟩ := hwf
  have hnodup : ((st.filter (fun kv => keyUnder pfx kv.fst)).map Prod.fst).Nodup :=
    List.Nodup.sublist ((List.filter_sublist st).map Prod.fst) hkeys
  have hmapeq : (st.filter (fun kv => keyUnder pfx kv.fst)).map Prod.fst =
      ((st.filter (fun kv => keyUnder pfx kv.fst)).map
        (fun kv => kv.snd.item.id)).map (fun id0 => pfx ++ [id0]) := by
    rw [List.map_map]
    apply List.map_congr_left
    intro kv hkv
    have h2 := List.mem_filter.mp hkv
    exact hshape kv h2.1 h2.2
  rw [hmapeq] at hnodup
  exact List.Nodup.of_map _ hnodup

theorem chunksOfGo_flatten {α : Type} (n : Nat) (hn : 1 ≤ n) :
    ∀ (fuel : Nat) (l : List α), l.length ≤ fuel →
      (chunksOfGo n fuel l).flatten = l := by
  intro fuel
  induction fuel with
  | zero =>
    intro l hl
    have h0 : l = [] := List.eq_nil_of_length_eq_zero (Nat.le_zero.mp hl)
    subst h0
    rfl
  | succ fuel ih =>
    intro l hl
    cases l with
    | nil => rfl
    | cons x xs =>
      simp only [chunksOfGo, List.flatten_cons]
      rw [ih (List.drop n (x :: xs))
        (by simp only [List.length_drop, List.length_cons] at hl ⊢; omega)]
      exact List.take_append_drop n (x :: xs)

theorem chunksOf_flatten {α : Type} (n : Nat) (hn : 1 ≤ n) (l : List α) :
    (chunksOf n l).flatten = l :=
  chunksOfGo_flatten n hn l.length l Nat.le.refl

theorem write_mutations_shape (pfx : List String) (now : Int) (s : Session) :
    ∀ c ∈ (write pfx now s).fst, ∀ m ∈ c,
      m.key = pfx ++ [m.value.item.id] := by
  unfold write
  split
  · simp
  · intro c hc m hm
    have hflat : m ∈ (chunksOf DENO_KV_MAX_BATCH_SIZE
        (s.itemsAdded.map (fun it =>
          { key := pfx ++ [it.item.id], value := it,
            expireIn := it.expireAt.map (fun t => t - now) : Mutation }))).flatten :=
      List.mem_flatten.mpr ⟨c, hc, hm⟩
    rw [chunksOf_flatten DENO_KV_MAX_BATCH_SIZE (by decide)] at hflat
    obtain ⟨it, hit, rfl⟩ := List.mem_map.mp hflat
    rfl

theorem WFStore_storeSet (pfx : List String) (st : Store) (k : List String)
    (v : AggregatorItem) (hwf : WFStore pfx st)
    (hk : k = pfx ++ [v.item.id]) : WFStore pfx (storeSet st k v) := by
  obtain ⟨hkeys, hshape⟩ := hwf
  unfold storeSet
  split
  · next hany =>
    constructor
    · have heq : storeKeys (st.map (fun kv => if kv.fst == k then (k, v) else kv)) =
          storeKeys st := by
        unfold storeKeys
        rw [List.map_map]
        apply List.map_congr_left
        intro kv hkv
        by_cases hbeq : (kv.fst == k) = true
        · simp only [Function.comp, if_pos hbeq]
          exact (eq_of_beq hbeq).symm
        · simp only [Function.comp, if_neg hbeq]
      rw [heq]
      exact hkeys
    · intro kv hkv hunder
      obtain ⟨kv0, hkv0, rfl⟩ := List.mem_map.mp hkv
      by_cases hbeq : (kv0.fst == k) = true
      · simp only [if_pos hbeq]
        exact hk
      · simp only [if_neg hbeq] at hunder ⊢
        exact hshape kv0 hkv0 hunder
  · next hany =>
    constructor
    · unfold storeKeys
      rw [List.map_append, List.nodup_append]
      simp only [List.map_cons, List.map_nil]
      refine ⟨hkeys, List.nodup_singleton _, ?_⟩
      rw [List.disjoint_singleton]
      intro hmem
      obtain ⟨kv0, hkv0, hfst⟩ := List.mem_map.mp hmem
      exact hany (List.any_eq_true.mpr ⟨kv0, hkv0, by simp [hfst]⟩)
    · intro kv hkv hunder
      rcases List.mem_append.mp hkv with h | h
      · exact hshape kv h hunder
      · have : kv = (k, v) := by simpa using h
        subst this
        exact hk

theorem WFStore_applyMutations (pfx : List String) :
    ∀ (ms : List Mutation) (st : Store), WFStore pfx st →
      (∀ m ∈ ms, m.key = pfx ++ [m.value.item.id]) →
      WFStore pfx (applyMutations st ms) := by
  intro ms
  induction ms with
  | nil => intro st hwf _; exact hwf
  | cons m rest ih =>
    intro st hwf hms
    have h1 : WFStore pfx (storeSet st m.key m.value) :=
      WFStore_storeSet pfx st m.key m.value hwf (hms m (by simp))
    have h2 : applyMutations st (m :: rest) =
        applyMutations (storeSet st m.key m.value) rest := rfl
    rw [h2]
    exact ih (storeSet st m.key m.value) h1 (fun m2 hm2 => hms m2 (by simp [hm2]))

theorem WFStore_applyChunks (pfx : List String) :
    ∀ (cs : List (List Mutation)) (st : Store), WFStore pfx st →
      (∀ c ∈ cs, ∀ m ∈ c, m.key = pfx ++ [m.value.item.id]) →
      WFStore pfx (applyChunks st cs) := by
  intro cs
  induction cs with
  | nil => intro st hwf _; exact hwf
  | cons c rest ih =>
    intro st hwf hcs
    have h1 : WFStore pfx (applyMutations st c) :=
      WFStore_applyMutations pfx c st hwf (hcs c (by simp))
    have h2 : applyChunks st (c :: rest) =
        applyChunks (applyMutations st c) rest := rfl
    rw [h2]
    exact ih (applyMutations st c) h1 (fun c2 hc2 => hcs c2 (by simp [hc2]))

theorem Inv_render_state (info : FeedInfo) (st : Store) (pfx : List String)
    (now : Int) (s : Session) (hids : (storeIdsUnder pfx st).Nodup)
    (hs : Inv s) : Inv (toJSON info st pfx now s).state := by
  rw [render_state]
  have h1 : Inv (read st pfx s) := Inv_read st pfx s hids hs
  have h2 : Inv (clean now (read st pfx s)) := Inv_clean now _ h1
  rw [clean_eq] at h2
  constructor
  · simp only [sessionIds, List.append_nil]
    simpa only [sessionIds] using h2.1
  · intro h
    simp at h

theorem WFStore_render (info : FeedInfo) (st : Store) (pfx : List String)
    (now : Int) (s : Session) (hwf : WFStore pfx st) :
    WFStore pfx (toJSON info st pfx now s).store := by
  simp only [toJSON]
  exact WFStore_applyChunks pfx _ st hwf
    (write_mutations_shape pfx now (clean now (read st pfx s)))

/-- C9: in every state reachable by `add` and `toJSON` calls from a fresh
session against a well-formed store, each item id has at most one entry
across `itemsCached` and `itemsAdded` combined, and the store (in
particular after every render flush) holds at most one entry per id under
the prefix, with unique keys of the shape prefix plus id. -/
theorem one_entry_per_id (st0 : Store) (pfx : List String) (st : Store)
    (s : Session) (hwf0 : WFStore pfx st0)
    (hr : Reachable st0 pfx st s) :
    (sessionIds s).Nodup ∧ WFStore pfx st ∧
      (storeIdsUnder pfx st).Nodup := by
  have main : Inv s ∧ WFStore pfx st := by
    induction hr with
    | init =>
      refine ⟨⟨?_, fun _ => rfl⟩, hwf0⟩
      simp [sessionIds]
    | addStep now subs hr ih =>
      obtain ⟨hInv, hwf⟩ := ih
      exact ⟨Inv_add _ _ now _ subs (WFStore_idsNodup _ _ hwf) hInv, hwf⟩
    | renderStep info now hr ih =>
      obtain ⟨hInv, hwf⟩ := ih
      exact ⟨Inv_render_state info _ _ now _ (WFStore_idsNodup _ _ hwf) hInv,
        WFStore_render info _ _ now _ hwf⟩
  exact ⟨main.1.1, main.2, WFStore_idsNodup _ _ main.2⟩

theorem one_entry_per_id_witness :
    (sessionIds (add [] ["p"] 0 ⟨false, [], []⟩ [⟨item1, none, none⟩]).fst).Nodup ∧
      WFStore ["p"] [] ∧ (storeIdsUnder ["p"] []).Nodup :=
  one_entry_per_id [] ["p"] [] _ ⟨List.nodup_nil, by simp⟩
    (Reachable.addStep 0 [⟨item1, none, none⟩] Reachable.init)

theorem heapGet_append_lt (h : Heap) (x : Item) (i : Nat)
    (hi : i < h.length) : heapGet (h ++ [x]) i = heapGet h i := by
  unfold heapGet
  rw [List.getD_eq_getElem?_getD, List.getD_eq_getElem?_getD,
    List.getElem?_append_left hi]

theorem heapGet_set_start (h : Heap) (x v1 : Item) (i : Nat)
    (hi : i < h.length) :
    heapGet ((h ++ [x]).set h.length v1) i = heapGet h i := by
  have hne : h.length ≠ i := Nat.ne_of_gt hi
  unfold heapGet
  rw [List.getD_eq_getElem?_getD, List.getElem?_set_ne hne,
    ← List.getD_eq_getElem?_getD]
  exact heapGet_append_lt h x i hi

theorem heapGet_set_start2 (h : Heap) (x v1 v2 : Item) (i : Nat)
    (hi : i < h.length) :
    heapGet (((h ++ [x]).set h.length v1).set h.length v2) i =
      heapGet h i := by
  have hne : h.length ≠ i := Nat.ne_of_gt hi
  unfold heapGet
  rw [List.getD_eq_getElem?_getD, List.getElem?_set_ne hne,
    ← List.getD_eq_getElem?_getD]
  exact heapGet_set_start h x v1 i hi

/-- One `add` loop iteration only allocates the clone cell and writes that
cell: the heap grows, and every previously allocated cell keeps its
value. -/
theorem addItemH_heap (now : Int) (s : Session) (h : Heap) (sub : RefSub) :
    h.length ≤ (addItemH now s h sub).fst.length ∧
      ∀ i, i < h.length →
        heapGet (addItemH now s h sub).fst i = heapGet h i := by
  simp only [addItemH]
  repeat' split
  all_goals refine ⟨by simp, fun i hi => ?_⟩
  all_goals first
    | exact heapGet_set_start2 h _ _ _ i hi
    | exact heapGet_set_start h _ _ i hi
    | exact heapGet_append_lt h _ i hi

/-- C10: `add` never mutates the caller-owned argument objects: whatever
the submissions, the outcome, and the timestamp fields the engine derives
(it stamps them on the internal clone), every cell allocated before the
call reads the same after the call. -/
theorem add_does_not_mutate_arguments (now : Int) :
    ∀ (subs : List RefSub) (s : Session) (h : Heap) (r : Nat),
      r < h.length →
      heapGet (addLoopH now s h subs).fst r = heapGet h r := by
  intro subs
  induction subs with
  | nil => intro s h r hr; rfl
  | cons sub rest ih =>
    intro s h r hr
    simp only [addLoopH]
    obtain ⟨hlen, hpres⟩ := addItemH_heap now s h sub
    cases hres : addItemH now s h sub with
    | mk h2 res =>
      rw [hres] at hlen hpres
      cases res with
      | error e => exact hpres r hr
      | ok s2 =>
        have h3 := ih s2 h2 r (Nat.lt_of_lt_of_le hr hlen)
        exact h3.trans (hpres r hr)

theorem add_does_not_mutate_arguments_witness :
    heapGet (addLoopH 0 ⟨true, [], []⟩ [item1] [⟨0, none, some true⟩]).fst 0 =
      heapGet [item1] 0 :=
  add_does_not_mutate_arguments 0 [⟨0, none, some true⟩] ⟨true, [], []⟩
    [item1] 0 (by decide)

end FeedAggregator
